import Mathlib

/-!
# Verification of the particle-collision simulation kernel

Shallow embedding of `src/collision_functions.py` (functions `collision` and
`update`) over exact rational arithmetic.  Particle ensembles are modelled as
lists of 2D rational vectors; the numpy array operations of the source are
translated operation by operation:

* `position += delta_time*velocity` becomes `newPos`;
* the boolean-mask line
  `velocity[(position < 0) | ((position > maxes[0]) & (position > maxes[1]))] *= -1`
  becomes `newVel` — the mask has the same (N, 2) shape as `velocity`, so
  numpy selects and negates individual *components*, not whole rows;
* `itertools.combinations(·, 2)` becomes `combs2`;
* the squared pairwise distances (`np.diff` then square then sum) become
  `sqDist`;
* `np.where(distances < 4*radius**2)[0]` followed by `combination[indices]`
  and `distances[indices]` becomes the order-preserving filter `selected`;
* the fancy-indexed in-place updates `velocity[i] -= …` / `velocity[j] += …`
  become gather-then-scatter writes (`applyWrites`): Python desugars
  `a[idx] -= v` to `a[idx] = a[idx] - v`, where `a[idx]` is a fresh copy
  gathered before the scatter, and a scatter with duplicate indices keeps the
  last write (it does not accumulate);
* for fewer than 3 particles `update` raises: with 0 or 1 particles
  `np.asarray(list(combinations(position, 2)))` is empty (1-dimensional) and
  `.swapaxes(1, 2)` raises an axis error; with exactly 2 particles the
  `.squeeze()` collapses the single pair to a 0-d scalar and the subsequent
  `distances[indices]` indexing of a scalar raises.  This is modelled by
  `update` returning `none` when fewer than 3 particles are present.
-/

namespace ParticleSim

/-- A 2D vector (or point) with exact rational coordinates, modelling one row
of a numpy `(N, 2)` float array. -/
abbrev Vec : Type := ℚ × ℚ

/-- Default vector used with `List.getD`; in-range indices never see it. -/
def dVec : Vec := (0, 0)

/-- Scalar multiplication, modelling numpy broadcasting of a `(k, 1)` column
against a `(k, 2)` array. -/
def scale (c : ℚ) (v : Vec) : Vec := (c * v.1, c * v.2)

/-- Dot product of two 2D vectors, modelling `np.sum(u*v, -1)`. -/
def dot2 (u v : Vec) : ℚ := u.1 * v.1 + u.2 * v.2

/-- Squared norm of a 2D vector. -/
def normSq (v : Vec) : ℚ := v.1 ^ 2 + v.2 ^ 2

/-- Squared distance between the two points of one pair produced by
`combinations(position, 2)`: the source takes `np.diff` (second minus first),
squares and sums the coordinates. -/
def sqDist (p q : Vec) : ℚ := (q.1 - p.1) ^ 2 + (q.2 - p.2) ^ 2

/-- A sequence of indexed writes applied left to right, modelling a numpy
scatter assignment `a[idx] = vals`: with duplicate indices the *last* write
wins (numpy setitem does not accumulate). -/
def applyWrites (l : List Vec) (ws : List (ℕ × Vec)) : List Vec :=
  ws.foldl (fun acc w => acc.set w.1 w.2) l

/-- `itertools.combinations(l, 2)`: all ordered-by-position pairs, earlier
element first, in lexicographic order of positions. -/
def combs2 {α : Type} : List α → List (α × α)
  | [] => []
  | x :: xs => (xs.map (fun y => (x, y))) ++ combs2 xs

/-- The impulse `dot / distances * diff` of one colliding pair
(`collision`, lines 72–75 of the source): `diff = position[i] - position[j]`,
`dot = np.sum(diff*(velocity[i] - velocity[j]), -1)`, divided by the squared
distance `d` passed alongside the pair. -/
def impulse (pos vel : List Vec) (pr : ℕ × ℕ) (d : ℚ) : Vec :=
  let diff := pos.getD pr.1 dVec - pos.getD pr.2 dVec
  scale (dot2 diff (vel.getD pr.1 dVec - vel.getD pr.2 dVec) / d) diff

/-- The source's `collision(indices, distances, position, velocity)`:

* `i = indices[:, 0]`, `j = indices[:, 1]`;
* `diff`, `dot` and hence each pair's impulse are computed from `velocity`
  *before* either in-place update runs;
* `velocity[i] -= dot / distances[:, np.newaxis]*diff` gathers `velocity[i]`
  (a copy of the pre-mutation rows), subtracts each pair's impulse, and
  scatters back (last write wins on duplicate `i`);
* `velocity[j] += dot / distances[:, np.newaxis]*diff` then gathers
  `velocity[j]` from the array *as left by the previous line*, adds the
  (still pre-mutation) impulses, and scatters back. -/
def collision (indices : List (ℕ × ℕ)) (distances : List ℚ)
    (position velocity : List Vec) : List Vec :=
  let pd := indices.zip distances
  let v1 := applyWrites velocity
    (pd.map (fun x => (x.1.1, velocity.getD x.1.1 dVec - impulse position velocity x.1 x.2)))
  applyWrites v1
    (pd.map (fun x => (x.1.2, v1.getD x.1.2 dVec + impulse position velocity x.1 x.2)))

/-- `position += delta_time*velocity` (`update`, line 106), elementwise over
the index-aligned position/velocity rows. -/
def newPos (position velocity : List Vec) (delta_time : ℚ) : List Vec :=
  (position.zip velocity).map (fun x => x.1 + scale delta_time x.2)

/-- The per-coordinate out-of-bounds test of `update`, line 109: a coordinate
`c` is masked iff `c < 0` or (`c > maxes[0]` and `c > maxes[1]`). -/
def oob (maxes : ℚ × ℚ) (c : ℚ) : Bool :=
  decide (c < 0) || (decide (maxes.1 < c) && decide (maxes.2 < c))

/-- Velocity row after the mask line of `update`, line 109: the boolean mask
has the same shape as `velocity`, so each velocity *component* is negated
exactly when its own coordinate of the (already advanced) position satisfies
the out-of-bounds test. -/
def flipVel (maxes : ℚ × ℚ) (p v : Vec) : Vec :=
  (if oob maxes p.1 then -v.1 else v.1, if oob maxes p.2 then -v.2 else v.2)

/-- All velocity rows after the mask line, driven by the post-integration
positions. -/
def newVel (maxes : ℚ × ℚ) (p1 velocity : List Vec) : List Vec :=
  (p1.zip velocity).map (fun x => flipVel maxes x.1 x.2)

/-- The index pairs `combinations(np.arange(0, position.shape[0]), 2)`
(`update`, line 117). -/
def allPairs (n : ℕ) : List (ℕ × ℕ) := combs2 (List.range n)

/-- The squared pair distances of `update`, lines 112–113, in the order
produced by `combinations(position, 2)`. -/
def pairDists (p1 : List Vec) : List ℚ := (combs2 p1).map (fun x => sqDist x.1 x.2)

/-- The colliding pairs with their squared distances:
`indices = np.where(distances < 4*radius**2)[0]` selects ascending pair
positions, and `combination[indices]` / `distances[indices]` keep exactly the
pairs below the threshold, in order (`update`, lines 114–119). -/
def selected (p1 : List Vec) (radius : ℚ) : List ((ℕ × ℕ) × ℚ) :=
  ((allPairs p1.length).zip (pairDists p1)).filter
    (fun x => decide (x.2 < 4 * radius ^ 2))

/-- The source's `update(position, velocity, delta_time, maxes, radius)`:
advance positions, flip masked velocity components, detect colliding pairs on
the new positions, resolve them with `collision`, and return the new
positions (velocities are mutated in place; we return both).  With fewer than
3 particles the pair machinery raises (see the module doc), modelled as
`none`. -/
def update (position velocity : List Vec) (delta_time : ℚ)
    (maxes : ℚ × ℚ) (radius : ℚ) : Option (List Vec × List Vec) :=
  let p1 := newPos position velocity delta_time
  let v1 := newVel maxes p1 velocity
  if p1.length ≤ 2 then none
  else
    let sel := selected p1 radius
    some (p1, collision (sel.map Prod.fst) (sel.map Prod.snd) p1 v1)

/-- The squared distance of an index pair measured on a position list; the
value `selected` stores alongside each pair. -/
def pairDist (p1 : List Vec) (pr : ℕ × ℕ) : ℚ :=
  sqDist (p1.getD pr.1 dVec) (p1.getD pr.2 dVec)

/-- The last element of `pd` whose pair has first index `m` — the last write
that the scatter `velocity[i] -= …` performs at row `m`. -/
def lastHitFst (pd : List ((ℕ × ℕ) × ℚ)) (m : ℕ) : Option ((ℕ × ℕ) × ℚ) :=
  (pd.filter (fun x => x.1.1 == m)).getLast?

/-- The last element of `pd` whose pair has second index `m` — the last write
that the scatter `velocity[j] += …` performs at row `m`. -/
def lastHitSnd (pd : List ((ℕ × ℕ) × ℚ)) (m : ℕ) : Option ((ℕ × ℕ) × ℚ) :=
  (pd.filter (fun x => x.1.2 == m)).getLast?

/-- Specification of the resolution phase per particle row: every impulse is
computed from the velocities `vel` as they stood when the phase started, the
`i`-side write of the last pair listing `m` first lands (later writes
overwrite, they do not accumulate), then the `j`-side write of the last pair
listing `m` second is added on top. -/
def resolvedVel (pos vel : List Vec) (pd : List ((ℕ × ℕ) × ℚ)) (m : ℕ) : Vec :=
  let u := match lastHitFst pd m with
    | some y => vel.getD m dVec - impulse pos vel y.1 y.2
    | none => vel.getD m dVec
  match lastHitSnd pd m with
  | some x => u + impulse pos vel x.1 x.2
  | none => u

/-! ### Helper lemmas about list scatters, pair enumeration and selection -/

theorem length_applyWrites (ws : List (ℕ × Vec)) (l : List Vec) :
    (applyWrites l ws).length = l.length := by
  induction ws generalizing l with
  | nil => rfl
  | cons w ws ih =>
    show (applyWrites (l.set w.1 w.2) ws).length = l.length
    rw [ih, List.length_set]

theorem mem_of_getLast?_eq_some {α : Type} {l : List α} {a : α}
    (h : l.getLast? = some a) : a ∈ l := by
  induction l with
  | nil => simp at h
  | cons x t ih =>
    cases t with
    | nil => simp_all
    | cons y t2 =>
      rw [List.getLast?_cons_cons] at h
      exact List.mem_cons_of_mem _ (ih h)

theorem getLast?_all_eq {α : Type} {l : List α} {v : α} (hne : l ≠ [])
    (h : ∀ x ∈ l, x = v) : l.getLast? = some v := by
  induction l with
  | nil => exact absurd rfl hne
  | cons x t ih =>
    cases t with
    | nil => simpa using h x (List.mem_cons_self x [])
    | cons y t2 =>
      rw [List.getLast?_cons_cons]
      exact ih (by simp) (fun z hz => h z (List.mem_cons_of_mem _ hz))

theorem getD_applyWrites (ws : List (ℕ × Vec)) (l : List Vec) (m : ℕ) (d : Vec)
    (hm : m < l.length) :
    (applyWrites l ws).getD m d =
      match (ws.filter (fun w => w.1 == m)).getLast? with
      | some w => w.2
      | none => l.getD m d := by
  induction ws using List.reverseRecOn with
  | nil => simp [applyWrites]
  | append_singleton ws w ih =>
    have happ : applyWrites l (ws ++ [w]) = (applyWrites l ws).set w.1 w.2 := by
      simp [applyWrites, List.foldl_append]
    by_cases hw : w.1 = m
    · have hfil : ((ws ++ [w]).filter (fun w => w.1 == m)).getLast? = some w := by
        rw [List.filter_append]
        simp only [List.filter_cons, List.filter_nil, hw, beq_self_eq_true, if_true]
        exact List.getLast?_concat _
      rw [happ, hfil, List.getD_eq_getElem?_getD, hw,
        List.getElem?_set_eq_of_lt w.2 (by rw [length_applyWrites]; exact hm)]
      rfl
    · have hfil : ((ws ++ [w]).filter (fun w => w.1 == m)) =
          ws.filter (fun w => w.1 == m) := by
        rw [List.filter_append]
        simp [List.filter_cons, hw]
      rw [happ, hfil, List.getD_eq_getElem?_getD,
        List.getElem?_set_ne hw, ← List.getD_eq_getElem?_getD, ih]

theorem getD_applyWrites_not_mem (ws : List (ℕ × Vec)) (l : List Vec) (m : ℕ)
    (d : Vec) (h : ∀ w ∈ ws, w.1 ≠ m) :
    (applyWrites l ws).getD m d = l.getD m d := by
  induction ws generalizing l with
  | nil => rfl
  | cons w ws ih =>
    show (applyWrites (l.set w.1 w.2) ws).getD m d = l.getD m d
    rw [ih _ (fun x hx => h x (List.mem_cons_of_mem _ hx)),
      List.getD_eq_getElem?_getD, List.getD_eq_getElem?_getD,
      List.getElem?_set_ne (h w (List.mem_cons_self _ _))]

theorem mem_combs2_append_singleton {α : Type} (l : List α) (a x y : α) :
    (x, y) ∈ combs2 (l ++ [a]) ↔ (x, y) ∈ combs2 l ∨ (x ∈ l ∧ y = a) := by
  induction l with
  | nil => simp [combs2]
  | cons u t ih =>
    simp only [List.cons_append, combs2, List.mem_append, List.mem_map,
      Prod.mk.injEq, List.mem_cons, List.mem_singleton, ih]
    aesop

theorem mem_allPairs (n i j : ℕ) : (i, j) ∈ allPairs n ↔ i < j ∧ j < n := by
  induction n with
  | zero => simp [allPairs, combs2]
  | succ n ih =>
    rw [allPairs, List.range_succ] at *
    rw [mem_combs2_append_singleton, ih, List.mem_range]
    constructor
    · rintro (⟨h1, h2⟩ | ⟨h1, rfl⟩) <;> omega
    · rintro ⟨h1, h2⟩
      rcases Nat.lt_or_ge j n with h | h
      · exact Or.inl ⟨h1, h⟩
      · exact Or.inr ⟨by omega, by omega⟩

theorem combs2_map {α β : Type} (f : α → β) (l : List α) :
    combs2 (l.map f) = (combs2 l).map (fun x => (f x.1, f x.2)) := by
  induction l with
  | nil => rfl
  | cons x t ih =>
    simp only [List.map_cons, combs2, ih, List.map_append, List.map_map]
    rfl

theorem self_eq_map_getD_range {α : Type} (l : List α) (d : α) :
    (List.range l.length).map (fun i => l.getD i d) = l := by
  apply List.ext_getElem
  · simp
  · intro k h1 h2
    simp only [List.getElem_map, List.getElem_range]
    exact List.getD_eq_getElem l d h2

theorem pairDists_eq (p1 : List Vec) :
    pairDists p1 = (allPairs p1.length).map (pairDist p1) := by
  conv_lhs => rw [pairDists, ← self_eq_map_getD_range p1 dVec]
  rw [combs2_map, List.map_map]
  rfl

theorem zip_self_map {α β : Type} (l : List α) (g : α → β) :
    l.zip (l.map g) = l.map (fun a => (a, g a)) := by
  induction l with
  | nil => rfl
  | cons x t ih => simp [List.zip_cons_cons, ih]

theorem selected_eq (p1 : List Vec) (radius : ℚ) :
    selected p1 radius =
      ((allPairs p1.length).filter
        (fun pr => decide (pairDist p1 pr < 4 * radius ^ 2))).map
        (fun pr => (pr, pairDist p1 pr)) := by
  rw [selected, pairDists_eq, zip_self_map, List.filter_map]
  rfl

theorem selPairs_eq (p1 : List Vec) (radius : ℚ) :
    (selected p1 radius).map Prod.fst =
      (allPairs p1.length).filter
        (fun pr => decide (pairDist p1 pr < 4 * radius ^ 2)) := by
  rw [selected_eq, List.map_map,
    show (Prod.fst ∘ fun pr : ℕ × ℕ => (pr, pairDist p1 pr)) = id from rfl,
    List.map_id]

theorem mem_selPairs (p1 : List Vec) (radius : ℚ) (i j : ℕ) :
    (i, j) ∈ (selected p1 radius).map Prod.fst ↔
      i < j ∧ j < p1.length ∧ pairDist p1 (i, j) < 4 * radius ^ 2 := by
  rw [selPairs_eq, List.mem_filter, mem_allPairs]
  simp [and_assoc]

theorem zip_unzip_pair {α β : Type} (s : List (α × β)) :
    (s.map Prod.fst).zip (s.map Prod.snd) = s := by
  rw [List.zip_map']
  simp

theorem update_eq_some {pos vel : List Vec} {dt : ℚ} {maxes : ℚ × ℚ} {r : ℚ}
    {p1 v2 : List Vec} (h : update pos vel dt maxes r = some (p1, v2)) :
    p1 = newPos pos vel dt ∧ 2 < p1.length ∧
      v2 = collision ((selected p1 r).map Prod.fst)
        ((selected p1 r).map Prod.snd) p1 (newVel maxes p1 vel) := by
  simp only [update] at h
  split at h
  · exact Option.noConfusion h
  · rename_i hl
    have h' := Option.some.inj h
    have hp : p1 = newPos pos vel dt := (congrArg Prod.fst h').symm
    have hv := (congrArg Prod.snd h').symm
    subst hp
    exact ⟨rfl, by omega, hv⟩

theorem collision_getD (P : List (ℕ × ℕ)) (D : List ℚ) (pos vel : List Vec)
    (m : ℕ) (hm : m < vel.length) :
    (collision P D pos vel).getD m dVec = resolvedVel pos vel (P.zip D) m := by
  simp only [collision]
  set w1 := (P.zip D).map
    (fun x => (x.1.1, vel.getD x.1.1 dVec - impulse pos vel x.1 x.2)) with hw1
  set v1 := applyWrites vel w1 with hv1def
  have hv1 : v1.getD m dVec = (match lastHitFst (P.zip D) m with
      | some y => vel.getD m dVec - impulse pos vel y.1 y.2
      | none => vel.getD m dVec) := by
    rw [hv1def, getD_applyWrites _ _ _ _ hm, hw1, List.filter_map,
      List.getLast?_map, lastHitFst,
      show ((fun w : ℕ × Vec => w.1 == m) ∘
          (fun x : (ℕ × ℕ) × ℚ =>
            (x.1.1, vel.getD x.1.1 dVec - impulse pos vel x.1 x.2)))
        = (fun x : (ℕ × ℕ) × ℚ => x.1.1 == m) from rfl]
    cases hf : (List.filter (fun x => x.1.1 == m) (P.zip D)).getLast? with
    | none => rfl
    | some y =>
      have hy : y.1.1 = m := by
        have := List.mem_filter.mp (mem_of_getLast?_eq_some hf)
        simpa using this.2
      simp only [Option.map_some']
      rw [hy]
  have hm1 : m < v1.length := by rw [hv1def, length_applyWrites]; exact hm
  rw [getD_applyWrites _ _ _ _ hm1, List.filter_map, List.getLast?_map,
    resolvedVel, lastHitSnd,
    show ((fun w : ℕ × Vec => w.1 == m) ∘
        (fun x : (ℕ × ℕ) × ℚ =>
          (x.1.2, v1.getD x.1.2 dVec + impulse pos vel x.1 x.2)))
      = (fun x : (ℕ × ℕ) × ℚ => x.1.2 == m) from rfl]
  cases hs : (List.filter (fun x => x.1.2 == m) (P.zip D)).getLast? with
  | none => simpa using hv1
  | some x =>
    have hx : x.1.2 = m := by
      have := List.mem_filter.mp (mem_of_getLast?_eq_some hs)
      simpa using this.2
    simp only [Option.map_some']
    rw [hx, hv1]

theorem length_collision (P : List (ℕ × ℕ)) (D : List ℚ) (pos vel : List Vec) :
    (collision P D pos vel).length = vel.length := by
  simp only [collision]
  rw [length_applyWrites, length_applyWrites]

theorem collision_untouched (P : List (ℕ × ℕ)) (D : List ℚ) (pos vel : List Vec)
    (m : ℕ) (h : ∀ x ∈ P.zip D, x.1.1 ≠ m ∧ x.1.2 ≠ m) :
    (collision P D pos vel).getD m dVec = vel.getD m dVec := by
  simp only [collision]
  have h2 : ∀ w ∈ (P.zip D).map
      (fun x => (x.1.2, (applyWrites vel ((P.zip D).map
        (fun x => (x.1.1, vel.getD x.1.1 dVec - impulse pos vel x.1 x.2)))).getD
          x.1.2 dVec + impulse pos vel x.1 x.2)), w.1 ≠ m := by
    intro w hw
    rw [List.mem_map] at hw
    obtain ⟨x, hx, rfl⟩ := hw
    exact (h x hx).2
  have h1 : ∀ w ∈ (P.zip D).map
      (fun x => (x.1.1, vel.getD x.1.1 dVec - impulse pos vel x.1 x.2)),
      w.1 ≠ m := by
    intro w hw
    rw [List.mem_map] at hw
    obtain ⟨x, hx, rfl⟩ := hw
    exact (h x hx).1
  rw [getD_applyWrites_not_mem _ _ _ _ h2, getD_applyWrites_not_mem _ _ _ _ h1]

theorem collision_isolated (P : List (ℕ × ℕ)) (D : List ℚ) (pos vel : List Vec)
    (i j : ℕ) (dij : ℚ) (hi : i < vel.length) (hj : j < vel.length) (hij : i ≠ j)
    (hmem : ((i, j), dij) ∈ P.zip D)
    (hiso : ∀ x ∈ P.zip D, x = ((i, j), dij) ∨
      (x.1.1 ≠ i ∧ x.1.2 ≠ i ∧ x.1.1 ≠ j ∧ x.1.2 ≠ j)) :
    (collision P D pos vel).getD i dVec
        = vel.getD i dVec - impulse pos vel (i, j) dij ∧
      (collision P D pos vel).getD j dVec
        = vel.getD j dVec + impulse pos vel (i, j) dij := by
  have hfi : lastHitFst (P.zip D) i = some ((i, j), dij) := by
    rw [lastHitFst]
    apply getLast?_all_eq
    · exact List.ne_nil_of_mem (List.mem_filter.mpr ⟨hmem, by simp⟩)
    · intro x hx
      have hx' := List.mem_filter.mp hx
      rcases hiso x hx'.1 with h | h
      · exact h
      · exact absurd (by simpa using hx'.2) h.1
  have hsi : lastHitSnd (P.zip D) i = none := by
    rw [lastHitSnd, List.getLast?_eq_none_iff, List.filter_eq_nil_iff]
    intro x hx
    rcases hiso x hx with rfl | h
    · simp [Ne.symm hij]
    · simpa using h.2.1
  have hfj : lastHitFst (P.zip D) j = none := by
    rw [lastHitFst, List.getLast?_eq_none_iff, List.filter_eq_nil_iff]
    intro x hx
    rcases hiso x hx with rfl | h
    · simp [hij]
    · simpa using h.2.2.1
  have hsj : lastHitSnd (P.zip D) j = some ((i, j), dij) := by
    rw [lastHitSnd]
    apply getLast?_all_eq
    · exact List.ne_nil_of_mem (List.mem_filter.mpr ⟨hmem, by simp⟩)
    · intro x hx
      have hx' := List.mem_filter.mp hx
      rcases hiso x hx'.1 with h | h
      · exact h
      · exact absurd (by simpa using hx'.2) h.2.2.2
  constructor
  · rw [collision_getD _ _ _ _ _ hi, resolvedVel, hfi, hsi]
  · rw [collision_getD _ _ _ _ _ hj, resolvedVel, hfj, hsj]

theorem length_newPos (pos vel : List Vec) (dt : ℚ) :
    (newPos pos vel dt).length = min pos.length vel.length := by
  simp [newPos]

theorem length_newVel (maxes : ℚ × ℚ) (p1 vel : List Vec) :
    (newVel maxes p1 vel).length = min p1.length vel.length := by
  simp [newVel]

theorem getD_newPos (pos vel : List Vec) (dt : ℚ) (k : ℕ)
    (h1 : k < pos.length) (h2 : k < vel.length) :
    (newPos pos vel dt).getD k dVec
      = pos.getD k dVec + scale dt (vel.getD k dVec) := by
  have h3 : k < (newPos pos vel dt).length := by rw [length_newPos]; omega
  rw [List.getD_eq_getElem _ _ h3, List.getD_eq_getElem _ _ h1,
    List.getD_eq_getElem _ _ h2]
  simp [newPos]

theorem getD_newVel (maxes : ℚ × ℚ) (p1 vel : List Vec) (k : ℕ)
    (h1 : k < p1.length) (h2 : k < vel.length) :
    (newVel maxes p1 vel).getD k dVec
      = flipVel maxes (p1.getD k dVec) (vel.getD k dVec) := by
  have h3 : k < (newVel maxes p1 vel).length := by rw [length_newVel]; omega
  rw [List.getD_eq_getElem _ _ h3, List.getD_eq_getElem _ _ h1,
    List.getD_eq_getElem _ _ h2]
  simp [newVel]

theorem sqDist_ne_zero {p q : Vec} (h : p ≠ q) : sqDist p q ≠ 0 := by
  rw [sqDist]
  intro h0
  apply h
  have h1 : q.1 - p.1 = 0 := by
    nlinarith [sq_nonneg (q.1 - p.1), sq_nonneg (q.2 - p.2)]
  have h2 : q.2 - p.2 = 0 := by
    nlinarith [sq_nonneg (q.1 - p.1), sq_nonneg (q.2 - p.2)]
  exact Prod.ext_iff.mpr ⟨by linarith, by linarith⟩

theorem isolated_pair_update
    {pos vel : List Vec} {dt : ℚ} {maxes : ℚ × ℚ} {r : ℚ} {p1 v2 : List Vec}
    {i j : ℕ}
    (hlen : pos.length = vel.length)
    (h : update pos vel dt maxes r = some (p1, v2))
    (hmem : (i, j) ∈ (selected p1 r).map Prod.fst)
    (hiso : ∀ pr ∈ (selected p1 r).map Prod.fst, pr = (i, j) ∨
      (pr.1 ≠ i ∧ pr.2 ≠ i ∧ pr.1 ≠ j ∧ pr.2 ≠ j)) :
    v2.getD i dVec = (newVel maxes p1 vel).getD i dVec
        - impulse p1 (newVel maxes p1 vel) (i, j) (pairDist p1 (i, j)) ∧
      v2.getD j dVec = (newVel maxes p1 vel).getD j dVec
        + impulse p1 (newVel maxes p1 vel) (i, j) (pairDist p1 (i, j)) := by
  obtain ⟨hp1, hn, hv2⟩ := update_eq_some h
  have hij := (mem_selPairs p1 r i j).mp hmem
  have hplen : p1.length = pos.length := by rw [hp1, length_newPos]; omega
  have hvlen : (newVel maxes p1 vel).length = p1.length := by
    rw [length_newVel]; omega
  have hz : ((selected p1 r).map Prod.fst).zip ((selected p1 r).map Prod.snd)
      = selected p1 r := zip_unzip_pair _
  have hmem' : ((i, j), pairDist p1 (i, j)) ∈ selected p1 r := by
    rw [selected_eq]
    rw [selPairs_eq] at hmem
    exact List.mem_map.mpr ⟨(i, j), hmem, rfl⟩
  have hiso' : ∀ x ∈ selected p1 r, x = ((i, j), pairDist p1 (i, j)) ∨
      (x.1.1 ≠ i ∧ x.1.2 ≠ i ∧ x.1.1 ≠ j ∧ x.1.2 ≠ j) := by
    intro x hx
    rw [selected_eq] at hx
    obtain ⟨pr, hpr, rfl⟩ := List.mem_map.mp hx
    have hprmem : pr ∈ (selected p1 r).map Prod.fst := by
      rw [selPairs_eq]; exact hpr
    rcases hiso pr hprmem with rfl | hd
    · exact Or.inl rfl
    · exact Or.inr hd
  rw [hv2]
  exact collision_isolated _ _ p1 (newVel maxes p1 vel) i j (pairDist p1 (i, j))
    (by have := hij.1; have := hij.2.1; omega)
    (by have := hij.2.1; omega)
    (by have := hij.1; omega)
    (by rw [hz]; exact hmem')
    (by rw [hz]; exact hiso')

theorem untouched_update
    {pos vel : List Vec} {dt : ℚ} {maxes : ℚ × ℚ} {r : ℚ} {p1 v2 : List Vec}
    {m : ℕ}
    (h : update pos vel dt maxes r = some (p1, v2))
    (hm : ∀ pr ∈ (selected p1 r).map Prod.fst, pr.1 ≠ m ∧ pr.2 ≠ m) :
    v2.getD m dVec = (newVel maxes p1 vel).getD m dVec := by
  obtain ⟨hp1, hn, hv2⟩ := update_eq_some h
  have hz : ((selected p1 r).map Prod.fst).zip ((selected p1 r).map Prod.snd)
      = selected p1 r := zip_unzip_pair _
  rw [hv2]
  apply collision_untouched
  rw [hz]
  intro x hx
  exact hm x.1 (List.mem_map.mpr ⟨x, hx, rfl⟩)

/-! ### Claims -/

/-- C10: in a resolution phase, every colliding pair's impulse is computed
from the velocities as they stood at the start of the phase (`vel`): no
pair's velocity write influences the impulse of any other pair.  When pairs
share a particle index, the vectorized scatter overwrites: the final row `m`
is the start velocity minus the impulse of the *last* pair listing `m` first
(earlier same-row writes are discarded, not accumulated), plus the impulse of
the last pair listing `m` second. -/
theorem C10_resolution_scatter_semantics (P : List (ℕ × ℕ)) (D : List ℚ)
    (pos vel : List Vec) (m : ℕ) (hm : m < vel.length) :
    (collision P D pos vel).getD m dVec = resolvedVel pos vel (P.zip D) m :=
  collision_getD P D pos vel m hm

/-- Witness for C10 at the shared-index configuration `[(0,1), (0,2)]`: the
final velocity of particle 0 is `(1,0)` — the start velocity `(1,0)` minus
the *last* pair's impulse `(0,0)`; accumulating both impulses would have
produced `(0,0)`. -/
theorem C10_witness :
    (collision [(0, 1), (0, 2)] [9/4, 9/4]
      [((0 : ℚ), (0 : ℚ)), (3/2, 0), (0, 3/2)]
      [((1 : ℚ), (0 : ℚ)), (0, 0), (0, 0)]).getD 0 dVec = (1, 0) :=
  (C10_resolution_scatter_semantics _ _ _ _ 0 (by decide)).trans (by
    norm_num [resolvedVel, lastHitFst, lastHitSnd, impulse, scale, dot2, dVec,
      List.zip_cons_cons, List.filter_cons, List.getLast?_cons_cons,
      List.getLast?_singleton])

/-- C3: for a completed frame, the colliding pairs handed to the resolution
phase are exactly the unordered index pairs `(i, j)`, `i < j`, whose squared
center distance on the post-integration positions `p1` is strictly below
`4·radius²`; the positions are those *before* any resolution-phase velocity
mutation (the resolution consumes this fixed set). -/
theorem C3_detection_set
    (pos vel : List Vec) (dt : ℚ) (maxes : ℚ × ℚ) (r : ℚ) (p1 v2 : List Vec)
    (hlen : pos.length = vel.length)
    (h : update pos vel dt maxes r = some (p1, v2)) :
    p1 = newPos pos vel dt ∧
    (∀ i j : ℕ, (i, j) ∈ (selected p1 r).map Prod.fst ↔
      i < j ∧ j < pos.length ∧
        sqDist (p1.getD i dVec) (p1.getD j dVec) < 4 * r ^ 2) ∧
    v2 = collision ((selected p1 r).map Prod.fst)
      ((selected p1 r).map Prod.snd) p1 (newVel maxes p1 vel) := by
  obtain ⟨hp1, hn, hv2⟩ := update_eq_some h
  have hplen : p1.length = pos.length := by rw [hp1, length_newPos]; omega
  refine ⟨hp1, fun i j => ?_, hv2⟩
  rw [mem_selPairs, hplen]
  exact Iff.rfl

/-- Witness for C3: a 3-particle frame in which the pair `(0, 1)` is
characterized by its post-integration squared distance `9/4 < 4`. -/
theorem C3_witness :
    (0, 1) ∈ (selected [((0 : ℚ), (0 : ℚ)), (3/2, 0), (0, 3/2)] 1).map Prod.fst
      ↔ 0 < 1 ∧ 1 < 3 ∧
        sqDist (([((0 : ℚ), (0 : ℚ)), (3/2, 0), (0, 3/2)]).getD 0 dVec)
          (([((0 : ℚ), (0 : ℚ)), (3/2, 0), (0, 3/2)]).getD 1 dVec) < 4 * 1 ^ 2 :=
  (C3_detection_set [(-1, 0), (3/2, 0), (0, 3/2)] [(1, 0), (0, 0), (0, 0)]
    1 (10, 10) 1 [((0 : ℚ), (0 : ℚ)), (3/2, 0), (0, 3/2)]
    [(1, 0), (1, 0), (0, 0)] (by decide) (by
      norm_num [update, newPos, newVel, flipVel, oob, selected, allPairs,
        pairDists, combs2, sqDist, scale, dot2, collision, applyWrites,
        impulse, dVec, List.range_succ, List.zip_cons_cons])).2.1 0 1

/-- C4 counterexample: with a single particle the frame update does not
complete — the empty pair array cannot be reshaped and numpy raises — so
`update` yields no result state instead of running the claimed no-op
collision phase. -/
theorem C4_counterexample :
    update [((5 : ℚ), (5 : ℚ))] [((1 : ℚ), (1 : ℚ))] 1 (10, 10) 1 = none := by
  decide

/-- C4 amended: for an ensemble with fewer than 2 particles the frame update
raises while building the pair arrays (modelled as `none`); the collision
phase resolves nothing, but not as a silent no-op — the frame fails. -/
theorem C4_small_ensemble_error (pos vel : List Vec) (dt : ℚ)
    (maxes : ℚ × ℚ) (r : ℚ) (h : pos.length < 2) :
    update pos vel dt maxes r = none := by
  have hl : (newPos pos vel dt).length ≤ 2 := by rw [length_newPos]; omega
  simp [update, hl]

/-- Witness for C4 amended at the empty ensemble. -/
theorem C4_witness : update ([] : List Vec) [] 1 (10, 10) 1 = none :=
  C4_small_ensemble_error [] [] 1 (10, 10) 1 (by decide)

/-- C8: for a completed frame, the returned positions are exactly the
integrated ones — each particle's new position is its old position plus
`delta_time` times its pre-update velocity — and nothing later in the frame
(boundary reflection, collision resolution) changes a position: the frame's
position output is `newPos` itself, with no clamping, so a particle may end
the frame outside the box. -/
theorem C8_integration_position
    (pos vel : List Vec) (dt : ℚ) (maxes : ℚ × ℚ) (r : ℚ) (p1 v2 : List Vec)
    (hlen : pos.length = vel.length)
    (h : update pos vel dt maxes r = some (p1, v2)) :
    p1 = newPos pos vel dt ∧
    ∀ k : ℕ, k < pos.length →
      p1.getD k dVec = pos.getD k dVec + scale dt (vel.getD k dVec) := by
  obtain ⟨hp1, _, _⟩ := update_eq_some h
  refine ⟨hp1, fun k hk => ?_⟩
  rw [hp1]
  exact getD_newPos pos vel dt k hk (by omega)

/-- Witness for C8: particle 0 integrates from `(9/10, 3)` with velocity
`(-1, 2)` to `(-1/10, 5)`, which is outside the box and is returned
unclamped. -/
theorem C8_witness :
    ([((-1 : ℚ)/10, (5 : ℚ)), (5, 5), (8, 8)]).getD 0 dVec
      = ([((9 : ℚ)/10, (3 : ℚ)), (5, 5), (8, 8)]).getD 0 dVec
        + scale 1 (([((-1 : ℚ), (2 : ℚ)), (0, 0), (0, 0)]).getD 0 dVec) :=
  (C8_integration_position [((9 : ℚ)/10, 3), (5, 5), (8, 8)]
    [(-1, 2), (0, 0), (0, 0)] 1 (10, 10) (1/10)
    [((-1 : ℚ)/10, 5), (5, 5), (8, 8)] [((1 : ℚ), 2), (0, 0), (0, 0)]
    (by decide) (by
      norm_num [update, newPos, newVel, flipVel, oob, selected, allPairs,
        pairDists, combs2, sqDist, scale, dot2, collision, applyWrites,
        impulse, dVec, List.range_succ, List.zip_cons_cons])).2 0 (by decide)

/-- C9: if, on the post-integration positions, every unordered pair is at
squared distance at least `4·radius²`, the resolution phase changes no
velocity: the frame's velocities are exactly the boundary-reflected ones. -/
theorem C9_no_collision_noop
    (pos vel : List Vec) (dt : ℚ) (maxes : ℚ × ℚ) (r : ℚ) (p1 v2 : List Vec)
    (hlen : pos.length = vel.length)
    (h : update pos vel dt maxes r = some (p1, v2))
    (hnc : ∀ i j : ℕ, i < j → j < pos.length →
      4 * r ^ 2 ≤ sqDist (p1.getD i dVec) (p1.getD j dVec)) :
    v2 = newVel maxes p1 vel := by
  obtain ⟨hp1, hn, hv2⟩ := update_eq_some h
  have hplen : p1.length = pos.length := by rw [hp1, length_newPos]; omega
  have hsel : selected p1 r = [] := by
    rw [selected_eq, List.map_eq_nil_iff, List.filter_eq_nil_iff]
    rintro ⟨i, j⟩ hpr
    rw [mem_allPairs] at hpr
    simp only [decide_eq_true_eq, not_lt]
    exact hnc i j hpr.1 (by omega)
  rw [hv2, hsel]
  rfl

/-- Witness for C9: three mutually distant particles; the frame's final
velocities equal the boundary-reflected velocities. -/
theorem C9_witness :
    ([((1 : ℚ), (2 : ℚ)), (0, 0), (0, 0)] : List Vec)
      = newVel (10, 10) [((-1 : ℚ)/10, 5), (5, 5), (8, 8)]
          [((-1 : ℚ), 2), (0, 0), (0, 0)] :=
  C9_no_collision_noop [((9 : ℚ)/10, 3), (5, 5), (8, 8)]
    [(-1, 2), (0, 0), (0, 0)] 1 (10, 10) (1/10)
    [((-1 : ℚ)/10, 5), (5, 5), (8, 8)] [((1 : ℚ), 2), (0, 0), (0, 0)]
    (by decide)
    (by
      norm_num [update, newPos, newVel, flipVel, oob, selected, allPairs,
        pairDists, combs2, sqDist, scale, dot2, collision, applyWrites,
        impulse, dVec, List.range_succ, List.zip_cons_cons])
    (by
      intro i j h1 h2
      simp only [List.length_cons, List.length_nil] at h2
      interval_cases j <;> interval_cases i <;>
        norm_num [sqDist, dVec])

/-- C1 counterexample: three particles for which the detection phase selects
the two pairs `(0,1)` and `(0,2)` sharing particle 0.  The pair `(0,1)` is
selected and its impulse is `(1,0)`, but the resolution phase leaves
`velocity[0] = (1,0)` — the write of the later pair `(0,2)` overwrites the
claimed `velocity[0] − impulse = (0,0)` — so the claim's per-pair equation
fails for pair `(0,1)`. -/
theorem C1_counterexample :
    update [(-1, 0), (3/2, 0), (0, 3/2)] [(1, 0), (0, 0), (0, 0)] 1 (10, 10) 1
      = some ([(0, 0), (3/2, 0), (0, 3/2)], [(1, 0), (1, 0), (0, 0)]) ∧
    (0, 1) ∈ (selected [((0 : ℚ), (0 : ℚ)), (3/2, 0), (0, 3/2)] 1).map Prod.fst ∧
    ([((1 : ℚ), (0 : ℚ)), (1, 0), (0, 0)]).getD 0 dVec ≠
      (newVel (10, 10) [((0 : ℚ), (0 : ℚ)), (3/2, 0), (0, 3/2)]
          [(1, 0), (0, 0), (0, 0)]).getD 0 dVec
        - impulse [((0 : ℚ), (0 : ℚ)), (3/2, 0), (0, 3/2)]
            (newVel (10, 10) [((0 : ℚ), (0 : ℚ)), (3/2, 0), (0, 3/2)]
              [(1, 0), (0, 0), (0, 0)]) (0, 1)
            (pairDist [((0 : ℚ), (0 : ℚ)), (3/2, 0), (0, 3/2)] (0, 1)) := by
  refine ⟨?_, ?_, ?_⟩
  · norm_num [update, newPos, newVel, flipVel, oob, selected, allPairs,
      pairDists, combs2, sqDist, scale, dot2, collision, applyWrites,
      impulse, dVec, List.range_succ, List.zip_cons_cons]
  · norm_num [selected, allPairs, pairDists, combs2, sqDist, dVec,
      List.range_succ, List.zip_cons_cons]
  · norm_num [newVel, flipVel, oob, impulse, pairDist, sqDist, scale, dot2,
      dVec, List.zip_cons_cons, Prod.ext_iff]

/-- C1 amended: for every colliding pair `(i, j)` *neither of whose particles
occurs in any other colliding pair*, the resolution phase updates
`velocity[i]` to `velocity[i] − impulse` and `velocity[j]` to
`velocity[j] + impulse` (velocities as they stand at the start of the
resolution phase, i.e. after boundary reflection), with
`impulse = dot(diff, velocity[i] − velocity[j]) / d² · diff`, and any
particle belonging to no colliding pair keeps its velocity; when a particle
is shared between colliding pairs the scatter overwrites instead (see
C10). -/
theorem C1_pair_resolution
    (pos vel : List Vec) (dt : ℚ) (maxes : ℚ × ℚ) (r : ℚ) (p1 v2 : List Vec)
    (i j : ℕ)
    (hlen : pos.length = vel.length)
    (h : update pos vel dt maxes r = some (p1, v2))
    (hmem : (i, j) ∈ (selected p1 r).map Prod.fst)
    (hiso : ∀ pr ∈ (selected p1 r).map Prod.fst, pr = (i, j) ∨
      (pr.1 ≠ i ∧ pr.2 ≠ i ∧ pr.1 ≠ j ∧ pr.2 ≠ j)) :
    v2.getD i dVec = (newVel maxes p1 vel).getD i dVec
        - impulse p1 (newVel maxes p1 vel) (i, j) (pairDist p1 (i, j)) ∧
    v2.getD j dVec = (newVel maxes p1 vel).getD j dVec
        + impulse p1 (newVel maxes p1 vel) (i, j) (pairDist p1 (i, j)) ∧
    ∀ m : ℕ, (∀ pr ∈ (selected p1 r).map Prod.fst, pr.1 ≠ m ∧ pr.2 ≠ m) →
      v2.getD m dVec = (newVel maxes p1 vel).getD m dVec := by
  obtain ⟨h1, h2⟩ := isolated_pair_update hlen h hmem hiso
  exact ⟨h1, h2, fun m hm => untouched_update h hm⟩

/-- Witness for C1 amended: an isolated head-on pair; particle 0's final
velocity equals its reflected velocity minus the pair impulse. -/
theorem C1_witness :
    ([((-1 : ℚ), (0 : ℚ)), (1, 0), (0, 0)]).getD 0 dVec
      = (newVel (200, 200) [((0 : ℚ), (0 : ℚ)), (1, 0), (50, 0)]
          [(1, 0), (-1, 0), (0, 0)]).getD 0 dVec
        - impulse [((0 : ℚ), (0 : ℚ)), (1, 0), (50, 0)]
            (newVel (200, 200) [((0 : ℚ), (0 : ℚ)), (1, 0), (50, 0)]
              [(1, 0), (-1, 0), (0, 0)]) (0, 1)
            (pairDist [((0 : ℚ), (0 : ℚ)), (1, 0), (50, 0)] (0, 1)) :=
  (C1_pair_resolution [(-1, 0), (2, 0), (50, 0)] [(1, 0), (-1, 0), (0, 0)]
    1 (200, 200) 1 [((0 : ℚ), (0 : ℚ)), (1, 0), (50, 0)]
    [((-1 : ℚ), (0 : ℚ)), (1, 0), (0, 0)] 0 1
    (by decide)
    (by norm_num [update, newPos, newVel, flipVel, oob, selected, allPairs,
      pairDists, combs2, sqDist, scale, dot2, collision, applyWrites,
      impulse, dVec, List.range_succ, List.zip_cons_cons])
    (by norm_num [selected, allPairs, pairDists, combs2, sqDist, dVec,
      List.range_succ, List.zip_cons_cons])
    (by norm_num [selected, allPairs, pairDists, combs2, sqDist, dVec,
      List.range_succ, List.zip_cons_cons])).1

/-- C6: for an isolated colliding pair `(i, j)`, the velocity change of `i`
over the resolution phase is the exact negation of the velocity change of
`j`, and hence the pair's velocity sum is unchanged by resolution. -/
theorem C6_momentum_conservation
    (pos vel : List Vec) (dt : ℚ) (maxes : ℚ × ℚ) (r : ℚ) (p1 v2 : List Vec)
    (i j : ℕ)
    (hlen : pos.length = vel.length)
    (h : update pos vel dt maxes r = some (p1, v2))
    (hmem : (i, j) ∈ (selected p1 r).map Prod.fst)
    (hiso : ∀ pr ∈ (selected p1 r).map Prod.fst, pr = (i, j) ∨
      (pr.1 ≠ i ∧ pr.2 ≠ i ∧ pr.1 ≠ j ∧ pr.2 ≠ j)) :
    v2.getD i dVec - (newVel maxes p1 vel).getD i dVec
      = -(v2.getD j dVec - (newVel maxes p1 vel).getD j dVec) ∧
    v2.getD i dVec + v2.getD j dVec
      = (newVel maxes p1 vel).getD i dVec + (newVel maxes p1 vel).getD j dVec := by
  obtain ⟨h1, h2⟩ := isolated_pair_update hlen h hmem hiso
  rw [h1, h2]
  constructor
  · abel
  · abel

/-- Witness for C6 at an isolated two-dimensional collision. -/
theorem C6_witness :
    ([((-1 : ℚ), (-1 : ℚ)), (1, 0), (0, 0)]).getD 0 dVec
        - (newVel (300, 300) [((0 : ℚ), (0 : ℚ)), (1, 0), (40, 0)]
            [(1, -1), (-1, 0), (0, 0)]).getD 0 dVec
      = -(([((-1 : ℚ), (-1 : ℚ)), (1, 0), (0, 0)]).getD 1 dVec
        - (newVel (300, 300) [((0 : ℚ), (0 : ℚ)), (1, 0), (40, 0)]
            [(1, -1), (-1, 0), (0, 0)]).getD 1 dVec) ∧
    ([((-1 : ℚ), (-1 : ℚ)), (1, 0), (0, 0)]).getD 0 dVec
        + ([((-1 : ℚ), (-1 : ℚ)), (1, 0), (0, 0)]).getD 1 dVec
      = (newVel (300, 300) [((0 : ℚ), (0 : ℚ)), (1, 0), (40, 0)]
            [(1, -1), (-1, 0), (0, 0)]).getD 0 dVec
        + (newVel (300, 300) [((0 : ℚ), (0 : ℚ)), (1, 0), (40, 0)]
            [(1, -1), (-1, 0), (0, 0)]).getD 1 dVec :=
  C6_momentum_conservation [(-1, 1), (2, 0), (40, 0)] [(1, -1), (-1, 0), (0, 0)]
    1 (300, 300) 1 [((0 : ℚ), (0 : ℚ)), (1, 0), (40, 0)]
    [((-1 : ℚ), (-1 : ℚ)), (1, 0), (0, 0)] 0 1
    (by decide)
    (by norm_num [update, newPos, newVel, flipVel, oob, selected, allPairs,
      pairDists, combs2, sqDist, scale, dot2, collision, applyWrites,
      impulse, dVec, List.range_succ, List.zip_cons_cons])
    (by norm_num [selected, allPairs, pairDists, combs2, sqDist, dVec,
      List.range_succ, List.zip_cons_cons])
    (by norm_num [selected, allPairs, pairDists, combs2, sqDist, dVec,
      List.range_succ, List.zip_cons_cons])

theorem energy_identity (P Q A B : Vec) (hS : sqDist P Q ≠ 0) :
    normSq (A - scale (dot2 (P - Q) (A - B) / sqDist P Q) (P - Q))
      + normSq (B + scale (dot2 (P - Q) (A - B) / sqDist P Q) (P - Q))
      = normSq A + normSq B := by
  obtain ⟨P1, P2⟩ := P
  obtain ⟨Q1, Q2⟩ := Q
  obtain ⟨A1, A2⟩ := A
  obtain ⟨B1, B2⟩ := B
  simp only [sqDist] at hS ⊢
  simp only [normSq, scale, dot2, Prod.mk_sub_mk, Prod.mk_add_mk] at hS ⊢
  field_simp
  ring

/-- C7: for an isolated colliding pair with distinct positions, resolution
preserves the pair's total kinetic energy `|vᵢ|² + |vⱼ|²` exactly. -/
theorem C7_energy_conservation
    (pos vel : List Vec) (dt : ℚ) (maxes : ℚ × ℚ) (r : ℚ) (p1 v2 : List Vec)
    (i j : ℕ)
    (hlen : pos.length = vel.length)
    (h : update pos vel dt maxes r = some (p1, v2))
    (hmem : (i, j) ∈ (selected p1 r).map Prod.fst)
    (hiso : ∀ pr ∈ (selected p1 r).map Prod.fst, pr = (i, j) ∨
      (pr.1 ≠ i ∧ pr.2 ≠ i ∧ pr.1 ≠ j ∧ pr.2 ≠ j))
    (hdist : p1.getD i dVec ≠ p1.getD j dVec) :
    normSq (v2.getD i dVec) + normSq (v2.getD j dVec)
      = normSq ((newVel maxes p1 vel).getD i dVec)
        + normSq ((newVel maxes p1 vel).getD j dVec) := by
  obtain ⟨h1, h2⟩ := isolated_pair_update hlen h hmem hiso
  rw [h1, h2]
  have hexp : impulse p1 (newVel maxes p1 vel) (i, j) (pairDist p1 (i, j))
      = scale (dot2 (p1.getD i dVec - p1.getD j dVec)
            ((newVel maxes p1 vel).getD i dVec
              - (newVel maxes p1 vel).getD j dVec)
          / sqDist (p1.getD i dVec) (p1.getD j dVec))
        (p1.getD i dVec - p1.getD j dVec) := rfl
  rw [hexp]
  exact energy_identity _ _ _ _ (sqDist_ne_zero hdist)

/-- Witness for C7 at an isolated vertical head-on collision. -/
theorem C7_witness :
    normSq (([((0 : ℚ), (-1 : ℚ)), (0, 1), (0, 0)]).getD 0 dVec)
        + normSq (([((0 : ℚ), (-1 : ℚ)), (0, 1), (0, 0)]).getD 1 dVec)
      = normSq ((newVel (400, 400) [((0 : ℚ), (0 : ℚ)), (0, 1), (60, 0)]
          [(0, 1), (0, -1), (0, 0)]).getD 0 dVec)
        + normSq ((newVel (400, 400) [((0 : ℚ), (0 : ℚ)), (0, 1), (60, 0)]
          [(0, 1), (0, -1), (0, 0)]).getD 1 dVec) :=
  C7_energy_conservation [(0, -1), (0, 2), (60, 0)] [(0, 1), (0, -1), (0, 0)]
    1 (400, 400) 1 [((0 : ℚ), (0 : ℚ)), (0, 1), (60, 0)]
    [((0 : ℚ), (-1 : ℚ)), (0, 1), (0, 0)] 0 1
    (by decide)
    (by norm_num [update, newPos, newVel, flipVel, oob, selected, allPairs,
      pairDists, combs2, sqDist, scale, dot2, collision, applyWrites,
      impulse, dVec, List.range_succ, List.zip_cons_cons])
    (by norm_num [selected, allPairs, pairDists, combs2, sqDist, dVec,
      List.range_succ, List.zip_cons_cons])
    (by norm_num [selected, allPairs, pairDists, combs2, sqDist, dVec,
      List.range_succ, List.zip_cons_cons])
    (by norm_num [dVec, Prod.ext_iff])

theorem parallel_impulse_eq (P Q : Vec) (a b : ℚ) :
    scale (dot2 (P - Q) (scale a (P - Q) - scale b (P - Q)) / sqDist P Q)
        (P - Q)
      = scale (a - b) (P - Q) := by
  obtain ⟨P1, P2⟩ := P
  obtain ⟨Q1, Q2⟩ := Q
  simp only [scale, dot2, sqDist, Prod.mk_sub_mk, Prod.mk.injEq]
  by_cases hS : (Q1 - P1) ^ 2 + (Q2 - P2) ^ 2 = 0
  · have e1 : Q1 - P1 = 0 := by
      nlinarith [sq_nonneg (Q1 - P1), sq_nonneg (Q2 - P2)]
    have e2 : Q2 - P2 = 0 := by
      nlinarith [sq_nonneg (Q1 - P1), sq_nonneg (Q2 - P2)]
    have f1 : P1 - Q1 = 0 := by linarith
    have f2 : P2 - Q2 = 0 := by linarith
    rw [f1, f2]
    constructor <;> ring
  · constructor <;> (field_simp; ring)

theorem impulse_parallel (pos vel : List Vec) (i j : ℕ) (a b : ℚ)
    (ha : vel.getD i dVec = scale a (pos.getD i dVec - pos.getD j dVec))
    (hb : vel.getD j dVec = scale b (pos.getD i dVec - pos.getD j dVec)) :
    impulse pos vel (i, j) (pairDist pos (i, j))
      = scale (a - b) (pos.getD i dVec - pos.getD j dVec) := by
  have hexp : impulse pos vel (i, j) (pairDist pos (i, j))
      = scale (dot2 (pos.getD i dVec - pos.getD j dVec)
            (vel.getD i dVec - vel.getD j dVec)
          / sqDist (pos.getD i dVec) (pos.getD j dVec))
        (pos.getD i dVec - pos.getD j dVec) := rfl
  rw [hexp, ha, hb]
  exact parallel_impulse_eq _ _ a b

/-- C5 counterexample: particles 0 and 1 finish integration *exactly*
`2·radius` apart (squared distance `4 = 4·radius²`), moving straight at each
other along the line of centers; because detection uses a strict `<`, the
pair is not selected and the frame leaves both velocities unchanged instead
of exchanging them. -/
theorem C5_counterexample :
    update [(-1, 0), (3, 0), (100, 0)] [(1, 0), (-1, 0), (0, 0)] 1 (200, 200) 1
      = some ([(0, 0), (2, 0), (100, 0)], [(1, 0), (-1, 0), (0, 0)]) ∧
    sqDist ((0 : ℚ), (0 : ℚ)) ((2 : ℚ), (0 : ℚ)) = 4 * 1 ^ 2 ∧
    ((1 : ℚ), (0 : ℚ)) = scale (-1/2) (((0 : ℚ), (0 : ℚ)) - ((2 : ℚ), (0 : ℚ))) ∧
    ((-1 : ℚ), (0 : ℚ)) = scale (1/2) (((0 : ℚ), (0 : ℚ)) - ((2 : ℚ), (0 : ℚ))) ∧
    ((1 : ℚ), (0 : ℚ)) ≠ ((-1 : ℚ), (0 : ℚ)) := by
  refine ⟨?_, by norm_num [sqDist], by norm_num [scale, Prod.ext_iff],
    by norm_num [scale, Prod.ext_iff], by norm_num [Prod.ext_iff]⟩
  norm_num [update, newPos, newVel, flipVel, oob, selected, allPairs,
    pairDists, combs2, sqDist, scale, dot2, collision, applyWrites,
    impulse, dVec, List.range_succ, List.zip_cons_cons]

/-- C5 amended: a pair is only resolved when its squared distance is
*strictly* below `4·radius²` (at exactly `2·radius` apart nothing happens);
for a selected isolated pair whose reflected velocities point at each other
along the line of centers (`vᵢ = a·diff`, `vⱼ = b·diff` with `a < 0 < b`),
the resolution phase exchanges the two velocities. -/
theorem C5_headon_exchange
    (pos vel : List Vec) (dt : ℚ) (maxes : ℚ × ℚ) (r : ℚ) (p1 v2 : List Vec)
    (i j : ℕ) (a b : ℚ)
    (hlen : pos.length = vel.length)
    (h : update pos vel dt maxes r = some (p1, v2))
    (hmem : (i, j) ∈ (selected p1 r).map Prod.fst)
    (hiso : ∀ pr ∈ (selected p1 r).map Prod.fst, pr = (i, j) ∨
      (pr.1 ≠ i ∧ pr.2 ≠ i ∧ pr.1 ≠ j ∧ pr.2 ≠ j))
    (ha : (newVel maxes p1 vel).getD i dVec
        = scale a (p1.getD i dVec - p1.getD j dVec))
    (hb : (newVel maxes p1 vel).getD j dVec
        = scale b (p1.getD i dVec - p1.getD j dVec))
    (hdir1 : a < 0) (hdir2 : 0 < b) :
    v2.getD i dVec = (newVel maxes p1 vel).getD j dVec ∧
    v2.getD j dVec = (newVel maxes p1 vel).getD i dVec := by
  obtain ⟨h1, h2⟩ := isolated_pair_update hlen h hmem hiso
  rw [h1, h2, impulse_parallel p1 (newVel maxes p1 vel) i j a b ha hb, ha, hb]
  constructor <;>
    · apply Prod.ext_iff.mpr
      constructor <;>
        · simp only [scale, Prod.fst_sub, Prod.snd_sub, Prod.fst_add,
            Prod.snd_add]
          ring

/-- Witness for C5 amended: an overlapping head-on pair (squared distance
`1 < 4·radius²`) exchanges velocities. -/
theorem C5_witness :
    ([((-1 : ℚ), (0 : ℚ)), (1, 0), (0, 0)]).getD 0 dVec
      = (newVel (200, 200) [((0 : ℚ), (0 : ℚ)), (1, 0), (100, 0)]
          [(1, 0), (-1, 0), (0, 0)]).getD 1 dVec ∧
    ([((-1 : ℚ), (0 : ℚ)), (1, 0), (0, 0)]).getD 1 dVec
      = (newVel (200, 200) [((0 : ℚ), (0 : ℚ)), (1, 0), (100, 0)]
          [(1, 0), (-1, 0), (0, 0)]).getD 0 dVec :=
  C5_headon_exchange [(-1, 0), (2, 0), (100, 0)] [(1, 0), (-1, 0), (0, 0)]
    1 (200, 200) 1 [((0 : ℚ), (0 : ℚ)), (1, 0), (100, 0)]
    [((-1 : ℚ), (0 : ℚ)), (1, 0), (0, 0)] 0 1 (-1) 1
    (by decide)
    (by norm_num [update, newPos, newVel, flipVel, oob, selected, allPairs,
      pairDists, combs2, sqDist, scale, dot2, collision, applyWrites,
      impulse, dVec, List.range_succ, List.zip_cons_cons])
    (by norm_num [selected, allPairs, pairDists, combs2, sqDist, dVec,
      List.range_succ, List.zip_cons_cons])
    (by norm_num [selected, allPairs, pairDists, combs2, sqDist, dVec,
      List.range_succ, List.zip_cons_cons])
    (by norm_num [newVel, flipVel, oob, scale, dVec, List.zip_cons_cons,
      Prod.ext_iff])
    (by norm_num [newVel, flipVel, oob, scale, dVec, List.zip_cons_cons,
      Prod.ext_iff])
    (by norm_num) (by norm_num)

/-- C2 counterexample: the particle integrates to `(-1/10, 5)` — negative on
the x axis only — with velocity `(-1, 2)`; after one frame the code's
elementwise mask negates only the x velocity component, giving `(1, 2)`, not
the claimed fully negated `(1, -2)`.  (Two distant spectator particles make
the frame completable; a literal 1-particle frame raises, see C4.) -/
theorem C2_counterexample :
    update [((9 : ℚ)/10, 3), (5, 5), (8, 8)] [(-1, 2), (0, 0), (0, 0)]
        1 (10, 10) (1/10)
      = some ([((-1 : ℚ)/10, 5), (5, 5), (8, 8)], [((1 : ℚ), 2), (0, 0), (0, 0)]) ∧
    ((1 : ℚ), (2 : ℚ)) ≠ ((1 : ℚ), (-2 : ℚ)) := by
  refine ⟨?_, by norm_num [Prod.ext_iff]⟩
  norm_num [update, newPos, newVel, flipVel, oob, selected, allPairs,
    pairDists, combs2, sqDist, scale, dot2, collision, applyWrites,
    impulse, dVec, List.range_succ, List.zip_cons_cons]

/-- C2 amended: out-of-bounds reflection is per component, not per particle:
for a particle in no colliding pair, each velocity component is negated
exactly when its *own* post-integration coordinate is negative or exceeds
both `max_x` and `max_y`; the other component is untouched.  In the claim's
example the resulting velocity is `(1, 2)`, not `(1, -2)`. -/
theorem C2_componentwise_reflection
    (pos vel : List Vec) (dt : ℚ) (maxes : ℚ × ℚ) (r : ℚ) (p1 v2 : List Vec)
    (k : ℕ)
    (hlen : pos.length = vel.length)
    (h : update pos vel dt maxes r = some (p1, v2))
    (hk : k < pos.length)
    (hfree : ∀ pr ∈ (selected p1 r).map Prod.fst, pr.1 ≠ k ∧ pr.2 ≠ k) :
    v2.getD k dVec =
      ((if (p1.getD k dVec).1 < 0 ∨
          (maxes.1 < (p1.getD k dVec).1 ∧ maxes.2 < (p1.getD k dVec).1)
        then -(vel.getD k dVec).1 else (vel.getD k dVec).1),
       (if (p1.getD k dVec).2 < 0 ∨
          (maxes.1 < (p1.getD k dVec).2 ∧ maxes.2 < (p1.getD k dVec).2)
        then -(vel.getD k dVec).2 else (vel.getD k dVec).2)) := by
  obtain ⟨hp1, hn, _⟩ := update_eq_some h
  have hplen : p1.length = pos.length := by rw [hp1, length_newPos]; omega
  rw [untouched_update h hfree,
    getD_newVel maxes p1 vel k (by omega) (by omega)]
  simp only [flipVel, oob, Bool.or_eq_true, Bool.and_eq_true,
    decide_eq_true_eq]

/-- Witness for C2 amended: the example particle ends with velocity
`(1, 2)` — only the x component flipped. -/
theorem C2_witness :
    ([((1 : ℚ), (2 : ℚ)), (0, 0), (0, 0)]).getD 0 dVec = ((1 : ℚ), (2 : ℚ)) :=
  (C2_componentwise_reflection [((9 : ℚ)/10, 3), (5, 5), (8, 8)]
    [(-1, 2), (0, 0), (0, 0)] 1 (10, 10) (1/10)
    [((-1 : ℚ)/10, 5), (5, 5), (8, 8)] [((1 : ℚ), 2), (0, 0), (0, 0)] 0
    (by decide)
    (by norm_num [update, newPos, newVel, flipVel, oob, selected, allPairs,
      pairDists, combs2, sqDist, scale, dot2, collision, applyWrites,
      impulse, dVec, List.range_succ, List.zip_cons_cons])
    (by decide)
    (by norm_num [selected, allPairs, pairDists, combs2, sqDist, dVec,
      List.range_succ, List.zip_cons_cons])).trans
    (by norm_num [dVec, Prod.ext_iff])

end ParticleSim
